import Mathlib

/-!
Verification of the `dft` (depth-first-thinking) task tracker.

The development shallowly embeds the tree data model and its operations
(`src/data/operations.ts`, `src/utils/validation.ts`), the relevant parts of
the TUI session controller (`src/tui/app.ts`), the navigation accessors
(`src/tui/navigation.ts`) and the storage adapter (`src/data/storage.ts`)
as executable Lean definitions, and proves the specified properties about
them.  Effects (UUID generation, the clock, filesystem writes) are passed in
as explicit parameters; mutation is modelled by returning the updated value.
-/

namespace Dft

/-- Node status, embedding the TS union type `"open" | "done"`
(`src/data/types.ts`). -/
inductive Status where
  | open_
  | done
deriving DecidableEq, Repr

/-- A node of the task tree (`src/data/types.ts` interface `Node`).
Timestamps are opaque ISO strings. -/
structure Node where
  id : String
  title : String
  status : Status
  children : List Node
  created_at : String
  completed_at : Option String
deriving Repr

/-- Executable model of JavaScript `String.prototype.trim`: strips leading
and trailing whitespace.  (Lean's builtin `String.trim` is extensionally the
same but is not kernel-reducible, so we recompute it over the character
list.) -/
def trim (s : String) : String :=
  ⟨((s.data.dropWhile Char.isWhitespace).reverse.dropWhile Char.isWhitespace).reverse⟩

/-- Result record of the validators (`src/utils/validation.ts`): the TS
object `{ isValid, error? }`. -/
structure ValidationResult where
  isValid : Bool
  error : Option String
deriving DecidableEq, Repr

/-- `validateTitle` from `src/utils/validation.ts`: the trimmed title must be
1–200 characters. -/
def validateTitle (title : String) : ValidationResult :=
  let trimmed := trim title
  if trimmed.length < 1 then
    ⟨false, some "Title cannot be empty or contain only whitespace."⟩
  else if trimmed.length > 200 then
    ⟨false, some "Title must be 200 characters or less."⟩
  else
    ⟨true, none⟩

/-- `createNode` from `src/data/operations.ts`.  The fresh UUID and the
current time are effects of the source function and enter the model as the
explicit parameters `id` and `now`.  Note that the source performs no
validation here: it unconditionally builds a node from the trimmed title. -/
def createNode (title : String) (id : String) (now : String) : Node :=
  { id := id
    title := trim title
    status := Status.open_
    children := []
    created_at := now
    completed_at := none }

/-- `addChildNode` from `src/data/operations.ts`: constructs via `createNode`
and appends to `parent.children`; returns the updated parent together with
the new child. -/
def addChildNode (parent : Node) (title : String) (id : String) (now : String) :
    Node × Node :=
  let newNode := createNode title id now
  ({ parent with children := parent.children ++ [newNode] }, newNode)

/-- `editNodeTitle` from `src/data/operations.ts`: unconditionally assigns
the trimmed new title (no validation in the source). -/
def editNodeTitle (node : Node) (newTitle : String) : Node :=
  { node with title := trim newTitle }

mutual
/-- `markNodeDone` from `src/data/operations.ts`: sets `status = "done"` and
`completed_at`, then recurses into every child.  The source samples
`new Date()` separately at each node during the synchronous cascade; the
model passes the sampled time `now` through the whole cascade. -/
def markNodeDone (now : String) : Node → Node
  | ⟨i, t, _, ch, ca, _⟩ => ⟨i, t, Status.done, markNodeDoneList now ch, ca, some now⟩

/-- The `for (const child of node.children)` loop of `markNodeDone`. -/
def markNodeDoneList (now : String) : List Node → List Node
  | [] => []
  | c :: rest => markNodeDone now c :: markNodeDoneList now rest
end

/-- `markNodeOpen` from `src/data/operations.ts`: single node only, no
cascade. -/
def markNodeOpen (node : Node) : Node :=
  { node with status := Status.open_, completed_at := none }

/-- `toggleNodeStatus` from `src/data/operations.ts`. -/
def toggleNodeStatus (now : String) (node : Node) : Node :=
  if node.status = Status.open_ then markNodeDone now node else markNodeOpen node

/-- `deleteNode` from `src/data/operations.ts`: `findIndex` + `splice`.
`findIdx?` returning `none` is the source's `findIndex` returning `-1`;
`splice(index, 1)` is `eraseIdx`.  Returns the updated parent and the
`boolean` result. -/
def deleteNode (parent : Node) (nodeId : String) : Node × Bool :=
  match parent.children.findIdx? (fun c => c.id == nodeId) with
  | none => (parent, false)
  | some index => ({ parent with children := parent.children.eraseIdx index }, true)

mutual
/-- `findNode` from `src/data/operations.ts`: depth-first pre-order search
by id. -/
def findNode : Node → String → Option Node
  | root@⟨i, _, _, ch, _, _⟩, id =>
    if i = id then some root else findNodeInList ch id

/-- The child loop of `findNode`. -/
def findNodeInList : List Node → String → Option Node
  | [], _ => none
  | c :: rest, id =>
    match findNode c id with
    | some found => some found
    | none => findNodeInList rest id
end

mutual
/-- `findParent` from `src/data/operations.ts`: returns the node whose
immediate children contain `childId`. -/
def findParent : Node → String → Option Node
  | root@⟨_, _, _, ch, _, _⟩, childId => findParentList root ch childId

/-- The child loop of `findParent`: checks each child's id against `childId`
(returning the current root on a hit) before recursing into the child. -/
def findParentList (root : Node) : List Node → String → Option Node
  | [], _ => none
  | c :: rest, childId =>
    if c.id = childId then some root
    else
      match findParent c childId with
      | some found => some found
      | none => findParentList root rest childId
end

mutual
/-- `getNodePath` from `src/data/operations.ts`: the root-to-target node
path, or `none` when the id is absent. -/
def getNodePath : Node → String → Option (List Node)
  | root@⟨i, _, _, ch, _, _⟩, targetId =>
    if i = targetId then some [root]
    else
      match getNodePathList ch targetId with
      | some path => some (root :: path)
      | none => none

/-- The child loop of `getNodePath`. -/
def getNodePathList : List Node → String → Option (List Node)
  | [], _ => none
  | c :: rest, targetId =>
    match getNodePath c targetId with
    | some path => some path
    | none => getNodePathList rest targetId
end

mutual
/-- All nodes of a subtree in pre-order (the node itself first).  This is
not a source function; it names the "subtree" / "descendants" vocabulary of
the specification. -/
def allNodes : Node → List Node
  | n@⟨_, _, _, ch, _, _⟩ => n :: allNodesList ch

/-- All nodes of a forest, in order. -/
def allNodesList : List Node → List Node
  | [] => []
  | c :: rest => allNodes c ++ allNodesList rest
end

mutual
/-- `allDescendantsDone` from `src/tui/app.ts`: every child is done and,
recursively, so is its whole subtree. -/
def allDescendantsDone : Node → Bool
  | ⟨_, _, _, ch, _, _⟩ => allDescendantsDoneList ch

/-- The child loop of `allDescendantsDone`: returns `false` as soon as a
child is not done or some deeper descendant is not done. -/
def allDescendantsDoneList : List Node → Bool
  | [] => true
  | c :: rest =>
    if c.status ≠ Status.done then false
    else if ¬ allDescendantsDone c then false
    else allDescendantsDoneList rest
end

/-- `getStatusDisplay` from `src/tui/app.ts`: the per-node completion marker
shown next to the title. -/
def getStatusDisplay (item : Node) : String :=
  if item.status ≠ Status.done then ""
  else if item.children.length = 0 then " (done)"
  else if allDescendantsDone item then " (done)"
  else " (done, partial)"

/-- `sanitizeInputChar` from `src/tui/app.ts`: letters pass lowercased,
digits, space, hyphen and underscore pass unchanged, everything else is
rejected (`null`). -/
def sanitizeInputChar (char : Char) : Option Char :=
  if ('a' ≤ char ∧ char ≤ 'z') ∨ ('A' ≤ char ∧ char ≤ 'Z') then
    some char.toLower
  else if ('0' ≤ char ∧ char ≤ '9') ∨ char = ' ' ∨ char = '_' ∨ char = '-' then
    some char
  else
    none

/-- Modal kind (`src/data/types.ts` `ModalType`). -/
inductive ModalType where
  | new
  | edit
  | delete
  | help
deriving DecidableEq, Repr

/-- Modal state (`src/data/types.ts` `ModalState`). -/
structure ModalState where
  type : ModalType
  inputValue : Option String
  errorMessage : Option String
  selectedButton : Option Nat
deriving DecidableEq, Repr

/-- The `"backspace"`/`"delete"` branch of `handleModalKeyPress`
(`src/tui/app.ts`): for a new/edit modal, drop the buffer's last character
(`slice(0, -1)`) and clear the error message; other modals are untouched. -/
def handleModalBackspace (modal : ModalState) : ModalState :=
  if modal.type = ModalType.new ∨ modal.type = ModalType.edit then
    { modal with
      inputValue := some ((modal.inputValue.getD "").dropRight 1)
      errorMessage := none }
  else modal

/-- The `default` branch of `handleModalKeyPress` (`src/tui/app.ts`) for a
keypress carrying a single character `c` with code point ≥ 32: sanitize and
append on success, otherwise keep the buffer and set the error message. -/
def handleModalChar (modal : ModalState) (c : Char) : ModalState :=
  if (modal.type = ModalType.new ∨ modal.type = ModalType.edit) ∧ 32 ≤ c.toNat then
    match sanitizeInputChar c with
    | some sanitized =>
      { modal with
        inputValue := some ((modal.inputValue.getD "").push sanitized)
        errorMessage := none }
    | none =>
      { modal with errorMessage := some "Only letters, numbers, spaces, - and _ allowed" }
  else modal

/-- The validation gate of `submitEditNode` (`src/tui/app.ts`): validate the
modal's buffer with `validateTitle`; on failure record the error and leave
the selected node untouched, on success apply `editNodeTitle`.  Returns the
(possibly updated) node and the modal error message. -/
def submitEditNode (node : Node) (title : String) : Node × Option String :=
  let validation := validateTitle title
  if validation.isValid then (editNodeTitle node title, none)
  else (node, validation.error)

/-- The in-session state seen by the navigation accessors
(`src/tui/navigation.ts`): the project root and the stack of node ids. -/
structure AppStateNav where
  root : Node
  navigationStack : List String

/-- `getCurrentNode` from `src/tui/navigation.ts`: resolves the id on top of
the stack and **throws** (`Except.error`) when it does not resolve.  An
empty stack reads `stack[-1] = undefined` in the source, which also fails to
resolve and throws the same error. -/
def getCurrentNode (state : AppStateNav) : Except String Node :=
  match state.navigationStack.getLast? with
  | some currentId =>
    match findNode state.root currentId with
    | some node => Except.ok node
    | none => Except.error "Current node not found - navigation stack is corrupted"
  | none => Except.error "Current node not found - navigation stack is corrupted"

/-- `getParentNode` from `src/tui/navigation.ts`: `none` at the root, else
the result of looking up the second-to-last stack id — a stale id simply
yields `none` (absence), never an error. -/
def getParentNode (state : AppStateNav) : Option Node :=
  if state.navigationStack.length ≤ 1 then none
  else
    match state.navigationStack.get? (state.navigationStack.length - 2) with
    | some parentId => findNode state.root parentId
    | none => none

/-- A project (`src/data/types.ts` interface `Project`). -/
structure Project where
  project_name : String
  version : String
  created_at : String
  modified_at : String
  root : Node
deriving Repr

/-- Outcome of one `saveProject` call: the in-memory project after the call,
the returned/thrown result, and the final filesystem facts. -/
structure SaveOutcome where
  project : Project
  result : Except String Unit
  tempExists : Bool
  targetUpdated : Bool
deriving Repr

/-- `saveProject` from `src/data/storage.ts`.  The clock is the parameter
`now`; `writeOk` says whether the `Bun.write`/`rename` pair succeeds.  The
source first assigns `project.modified_at`, then serializes and attempts the
atomic write; on failure it removes the temp file (`rm` with `force: true`,
cleanup errors ignored) and throws. -/
def saveProject (project : Project) (now : String) (writeOk : Bool) : SaveOutcome :=
  let updated := { project with modified_at := now }
  if writeOk then
    { project := updated
      result := Except.ok ()
      tempExists := false
      targetUpdated := true }
  else
    { project := updated
      result := Except.error "Cannot write to project directory. Check permissions."
      tempExists := false
      targetUpdated := false }

/-- Follows the specification's words for `createNode` (§4.1): "trims title,
fails with `ValidationError` if trimmed length is 0 or exceeds 200" before
building the node.  This is the refinement target the source `createNode` is
compared against. -/
def createNodeSpec (title : String) (id : String) (now : String) :
    Except String Node :=
  let validation := validateTitle title
  if validation.isValid then Except.ok (createNode title id now)
  else Except.error (validation.error.getD "ValidationError")

mutual
/-- Mutual induction over the nested `Node`/`List Node` structure. -/
def nodeInd (P : Node → Prop) (Q : List Node → Prop)
    (hmk : ∀ i t s ch ca co, Q ch → P ⟨i, t, s, ch, ca, co⟩)
    (hnil : Q []) (hcons : ∀ c l, P c → Q l → Q (c :: l)) : ∀ n, P n
  | ⟨i, t, s, ch, ca, co⟩ => hmk i t s ch ca co (nodeListInd P Q hmk hnil hcons ch)

/-- List part of the mutual induction. -/
def nodeListInd (P : Node → Prop) (Q : List Node → Prop)
    (hmk : ∀ i t s ch ca co, Q ch → P ⟨i, t, s, ch, ca, co⟩)
    (hnil : Q []) (hcons : ∀ c l, P c → Q l → Q (c :: l)) : ∀ l, Q l
  | [] => hnil
  | c :: l =>
    hcons c l (nodeInd P Q hmk hnil hcons c) (nodeListInd P Q hmk hnil hcons l)
end

theorem markNodeDone_id_eq (now : String) (n : Node) :
    (markNodeDone now n).id = n.id := by
  obtain ⟨i, t, s, ch, ca, co⟩ := n
  simp [markNodeDone]

theorem markNodeDone_preserves_ids (now : String) :
    ∀ n : Node, (allNodes (markNodeDone now n)).map Node.id = (allNodes n).map Node.id :=
  nodeInd
    (fun n => (allNodes (markNodeDone now n)).map Node.id = (allNodes n).map Node.id)
    (fun l =>
      (allNodesList (markNodeDoneList now l)).map Node.id = (allNodesList l).map Node.id)
    (fun i t s ch ca co hq => by
      simp [markNodeDone, allNodes, hq])
    (by simp [markNodeDoneList, allNodesList])
    (fun c l hc hl => by
      simp [markNodeDoneList, allNodesList, hc, hl])

theorem markNodeDone_all_done (now : String) :
    ∀ n : Node, ∀ m ∈ allNodes (markNodeDone now n),
      m.status = Status.done ∧ m.completed_at = some now :=
  nodeInd
    (fun n => ∀ m ∈ allNodes (markNodeDone now n),
      m.status = Status.done ∧ m.completed_at = some now)
    (fun l => ∀ m ∈ allNodesList (markNodeDoneList now l),
      m.status = Status.done ∧ m.completed_at = some now)
    (fun i t s ch ca co hq => by
      intro m hm
      simp only [markNodeDone, allNodes, List.mem_cons] at hm
      rcases hm with rfl | hm
      · exact ⟨rfl, rfl⟩
      · exact hq m hm)
    (by intro m hm; simp [markNodeDoneList, allNodesList] at hm)
    (fun c l hc hl => by
      intro m hm
      simp only [markNodeDoneList, allNodesList, List.mem_append] at hm
      rcases hm with hm | hm
      · exact hc m hm
      · exact hl m hm)

/-- Sample leaf node used to instantiate the theorems. -/
def chainC : Node := ⟨"C", "task C", Status.open_, [], "t0", none⟩

/-- Sample inner node with one child. -/
def chainB : Node := ⟨"B", "task B", Status.open_, [chainC], "t0", none⟩

/-- Sample inner node, already done, so the cascade refreshes it. -/
def chainA : Node := ⟨"A", "task A", Status.done, [chainB], "t0", some "t-1"⟩

/-- Sample chain root → A → B → C. -/
def chainRoot : Node := ⟨"root", "Root", Status.open_, [chainA], "t0", none⟩

/-- Sample DONE leaf. -/
def doneChild : Node := ⟨"dc", "done child", Status.done, [], "t0", some "t1"⟩

/-- Sample DONE parent with a DONE child. -/
def doneParent : Node := ⟨"dp", "done parent", Status.done, [doneChild], "t0", some "t2"⟩

/-- C1: `markNodeDone` sets status DONE and `completed_at = now` on the node
and, unconditionally, on every node of its subtree (already-DONE descendants
included), while leaving the subtree's shape (the pre-order id sequence)
unchanged. -/
theorem markNodeDone_cascades (now : String) (n : Node) (m : Node)
    (hm : m ∈ allNodes (markNodeDone now n)) :
    m.status = Status.done ∧ m.completed_at = some now ∧
    (allNodes (markNodeDone now n)).map Node.id = (allNodes n).map Node.id :=
  ⟨(markNodeDone_all_done now n m hm).1, (markNodeDone_all_done now n m hm).2,
    markNodeDone_preserves_ids now n⟩

/-- Witness for C1 on the chain root → A → B → C: the deepest node after
`markNodeDone` at the root is DONE with its timestamp refreshed. -/
theorem markNodeDone_cascades_witness :
    (⟨"C", "task C", Status.done, [], "t0", some "t1"⟩ : Node).status = Status.done ∧
    (⟨"C", "task C", Status.done, [], "t0", some "t1"⟩ : Node).completed_at = some "t1" ∧
    (allNodes (markNodeDone "t1" chainRoot)).map Node.id =
      (allNodes chainRoot).map Node.id :=
  markNodeDone_cascades "t1" chainRoot ⟨"C", "task C", Status.done, [], "t0", some "t1"⟩
    (List.Mem.tail _ (List.Mem.tail _ (List.Mem.tail _ (List.Mem.head _))))

/-- `validateTitle` accepts exactly the titles whose trimmed length is
between 1 and 200. -/
theorem validateTitle_isValid_iff (t : String) :
    (validateTitle t).isValid = true ↔ 1 ≤ (trim t).length ∧ (trim t).length ≤ 200 := by
  simp only [validateTitle]
  split_ifs with h1 h2 <;> simp <;> omega

/-- C2 counterexample: on the whitespace-only title `" "` — which
`validateTitle` rejects — the source `createNode` does **not** fail: it
returns a fresh OPEN node whose title is the (empty) trimmed input, whereas
the specification's `createNode` fails with a validation error. -/
theorem createNode_not_failing :
    (validateTitle " ").isValid = false ∧
    createNode " " "id-1" "t1" =
      ⟨"id-1", "", Status.open_, [], "t1", none⟩ ∧
    createNodeSpec " " "id-1" "t1" =
      Except.error "Title cannot be empty or contain only whitespace." :=
  ⟨by decide, rfl, rfl⟩

/-- C2 (amended): `createNode` performs no validation and never fails — for
every title (valid or not) it returns a node whose title is the trimmed
input, with the supplied fresh id, status OPEN, empty children,
`created_at = now` and `completed_at` absent; the 0/200 rule lives in
`validateTitle`, which accepts exactly trimmed lengths 1–200 and which
callers consult before invoking `createNode`. -/
theorem createNode_builds_node (title id now : String) :
    createNode title id now =
      ⟨id, trim title, Status.open_, [], now, none⟩ ∧
    ((validateTitle title).isValid = true ↔
      1 ≤ (trim title).length ∧ (trim title).length ≤ 200) :=
  ⟨rfl, validateTitle_isValid_iff title⟩

/-- C3 counterexample: `editNodeTitle` itself validates nothing — applied to
the invalid (whitespace-only) title `" "` it still overwrites the node's
title with the empty trimmed value, so the node does not retain its prior
title. -/
theorem editNodeTitle_not_validating :
    (validateTitle " ").isValid = false ∧
    (editNodeTitle chainC " ").title = "" ∧
    chainC.title = "task C" := by
  refine ⟨by decide, by decide, by decide⟩

/-- C3 (amended): the validation lives in the caller `submitEditNode`: for a
title whose trimmed length is 0 or exceeds 200 it fails validation and
returns the node entirely unchanged together with the validation error,
never reaching `editNodeTitle`; `editNodeTitle` itself unconditionally sets
the title to the trimmed value and touches no other field. -/
theorem submitEditNode_invalid_unchanged (node : Node) (t : String)
    (h : (validateTitle t).isValid = false) :
    (submitEditNode node t).1 = node ∧
    (submitEditNode node t).2 = (validateTitle t).error ∧
    (editNodeTitle node t).title = trim t ∧
    (editNodeTitle node t).id = node.id ∧
    (editNodeTitle node t).status = node.status ∧
    (editNodeTitle node t).children = node.children ∧
    (editNodeTitle node t).created_at = node.created_at ∧
    (editNodeTitle node t).completed_at = node.completed_at := by
  simp [submitEditNode, h, editNodeTitle]

/-- Witness for the amended C3 at the empty title. -/
theorem submitEditNode_invalid_unchanged_witness :
    (submitEditNode chainC "").1 = chainC ∧
    (submitEditNode chainC "").2 = (validateTitle "").error ∧
    (editNodeTitle chainC "").title = trim "" ∧
    (editNodeTitle chainC "").id = chainC.id ∧
    (editNodeTitle chainC "").status = chainC.status ∧
    (editNodeTitle chainC "").children = chainC.children ∧
    (editNodeTitle chainC "").created_at = chainC.created_at ∧
    (editNodeTitle chainC "").completed_at = chainC.completed_at :=
  submitEditNode_invalid_unchanged chainC "" (by decide)

/-- C6: `markOpen` on a DONE node with DONE children opens only that node
and clears its `completed_at`; the children list is untouched (same list,
so every child keeps its status, timestamps and every other field), and the
node's own id, title and `created_at` are kept. -/
theorem markNodeOpen_no_cascade (n : Node)
    (hself : n.status = Status.done)
    (hchildren : ∀ c ∈ n.children, c.status = Status.done) :
    (markNodeOpen n).status = Status.open_ ∧
    (markNodeOpen n).completed_at = none ∧
    (markNodeOpen n).children = n.children ∧
    (markNodeOpen n).id = n.id ∧
    (markNodeOpen n).title = n.title ∧
    (markNodeOpen n).created_at = n.created_at ∧
    ∀ c ∈ (markNodeOpen n).children, c.status = Status.done :=
  ⟨rfl, rfl, rfl, rfl, rfl, rfl, hchildren⟩

/-- Witness for C6: a DONE parent with one DONE child reopens alone. -/
theorem markNodeOpen_no_cascade_witness :
    (markNodeOpen doneParent).status = Status.open_ ∧
    (markNodeOpen doneParent).completed_at = none ∧
    (markNodeOpen doneParent).children = doneParent.children ∧
    (markNodeOpen doneParent).id = doneParent.id ∧
    (markNodeOpen doneParent).title = doneParent.title ∧
    (markNodeOpen doneParent).created_at = doneParent.created_at ∧
    ∀ c ∈ (markNodeOpen doneParent).children, c.status = Status.done :=
  markNodeOpen_no_cascade doneParent rfl (by
    intro c hc
    simp only [doneParent, List.mem_singleton] at hc
    subst hc; rfl)

/-- C10: `saveProject` advances `modified_at` on the in-memory project
before attempting the write, so on a failed write the call throws the
filesystem error while the project's `modified_at` is already the new
timestamp (no rollback), every other in-memory field is untouched, the
temporary file has been removed, and the target file was not replaced. -/
theorem saveProject_failed_write (p : Project) (now : String) :
    (saveProject p now false).project.modified_at = now ∧
    (saveProject p now false).project.root = p.root ∧
    (saveProject p now false).project.project_name = p.project_name ∧
    (saveProject p now false).project.version = p.version ∧
    (saveProject p now false).project.created_at = p.created_at ∧
    (saveProject p now false).result =
      Except.error "Cannot write to project directory. Check permissions." ∧
    (saveProject p now false).tempExists = false ∧
    (saveProject p now false).targetUpdated = false :=
  ⟨rfl, rfl, rfl, rfl, rfl, rfl, rfl, rfl⟩

/-- `splice` at the index returned by a successful `findIndex` removes the
first element satisfying the predicate. -/
theorem eraseIdx_findIdx?_eq_eraseP {α : Type} (p : α → Bool) :
    ∀ (l : List α) (i : Nat), l.findIdx? p = some i → l.eraseIdx i = l.eraseP p := by
  intro l
  induction l with
  | nil => intro i h; simp at h
  | cons a l ih =>
    intro i h
    rw [List.findIdx?_cons] at h
    by_cases hp : p a
    · simp only [hp, if_true] at h
      cases h
      simp [List.eraseP_cons_of_pos hp]
    · simp only [hp, if_false, List.findIdx?_succ] at h
      rcases Option.map_eq_some'.mp h with ⟨j, hj, rfl⟩
      simp [List.eraseP_cons_of_neg hp, List.eraseIdx_cons_succ, ih j hj]

/-- If a list holds at most one element satisfying `p`, nothing satisfying
`p` survives `eraseP p`. -/
theorem eraseP_no_match {α : Type} (p : α → Bool) :
    ∀ l : List α, l.countP p ≤ 1 → ∀ x ∈ l.eraseP p, p x = false := by
  intro l
  induction l with
  | nil => intro _ x hx; simp at hx
  | cons a l ih =>
    intro hcount x hx
    by_cases hp : p a
    · rw [List.eraseP_cons_of_pos hp] at hx
      rw [List.countP_cons_of_pos _ _ hp] at hcount
      have hzero : l.countP p = 0 := by omega
      exact Bool.of_not_eq_true (List.countP_eq_zero.mp hzero x hx)
    · rw [List.eraseP_cons_of_neg hp] at hx
      rw [List.countP_cons_of_neg _ _ hp] at hcount
      rcases List.mem_cons.mp hx with rfl | hx
      · exact Bool.of_not_eq_true hp
      · exact ih hcount x hx


/-- C4: `deleteNode` removes the first child whose id matches (with its
whole subtree, since the child is removed wholesale) and returns `true`,
touching no other field of the parent; when no child matches it returns
`false` and the parent — its children sequence included — is unchanged
(total function, never throws).  When the parent holds at most one matching
child (guaranteed by tree-wide id uniqueness), a second call with the same
id returns `false` and changes nothing. -/
theorem deleteNode_spec (parent : Node) (nodeId : String) :
    ((∀ c ∈ parent.children, c.id ≠ nodeId) → deleteNode parent nodeId = (parent, false)) ∧
    ((∃ c ∈ parent.children, c.id = nodeId) →
      (deleteNode parent nodeId).2 = true ∧
      (deleteNode parent nodeId).1.children =
        parent.children.eraseP (fun c => c.id == nodeId) ∧
      (deleteNode parent nodeId).1.children.length + 1 = parent.children.length ∧
      (deleteNode parent nodeId).1.id = parent.id ∧
      (deleteNode parent nodeId).1.title = parent.title ∧
      (deleteNode parent nodeId).1.status = parent.status ∧
      (deleteNode parent nodeId).1.created_at = parent.created_at ∧
      (deleteNode parent nodeId).1.completed_at = parent.completed_at) ∧
    (parent.children.countP (fun c => c.id == nodeId) ≤ 1 →
      deleteNode (deleteNode parent nodeId).1 nodeId = ((deleteNode parent nodeId).1, false)) := by
  refine ⟨?_, ?_, ?_⟩
  · intro hnone
    have h : parent.children.findIdx? (fun c => c.id == nodeId) = none := by
      rw [List.findIdx?_eq_none_iff]
      intro c hc
      simpa using hnone c hc
    simp [deleteNode, h]
  · intro hmatch
    have hne : parent.children.findIdx? (fun c => c.id == nodeId) ≠ none := by
      intro hn
      rw [List.findIdx?_eq_none_iff] at hn
      rcases hmatch with ⟨c, hc, hid⟩
      have := hn c hc
      simp [hid] at this
    rcases Option.ne_none_iff_exists'.mp hne with ⟨i, hi⟩
    have herase := eraseIdx_findIdx?_eq_eraseP (fun c => c.id == nodeId) parent.children i hi
    have hlen : (parent.children.eraseP (fun c => c.id == nodeId)).length + 1 =
        parent.children.length := by
      rcases hmatch with ⟨c, hc, hid⟩
      exact List.length_eraseP_add_one hc (by simp [hid])
    simp [deleteNode, hi, herase, hlen]
  · intro hcount
    match hidx : parent.children.findIdx? (fun c => c.id == nodeId) with
    | none => simp [deleteNode, hidx]
    | some i =>
      have herase := eraseIdx_findIdx?_eq_eraseP (fun c => c.id == nodeId) parent.children i hidx
      have hnone : (parent.children.eraseP (fun c => c.id == nodeId)).findIdx?
          (fun c => c.id == nodeId) = none := by
        rw [List.findIdx?_eq_none_iff]
        exact eraseP_no_match _ parent.children hcount
      simp only [deleteNode, hidx, herase]
      simp [hnone]

/-- Sample sibling leaf. -/
def sib (i : String) : Node := ⟨i, "sibling", Status.open_, [], "t0", none⟩

/-- Sample parent with three children `a`, `b`, `c`. -/
def sampleParent : Node := ⟨"p", "parent", Status.open_, [sib "a", sib "b", sib "c"], "t0", none⟩

/-- Witness for C4: deleting child `b` twice — the second call returns
`false` and changes nothing. -/
theorem deleteNode_spec_witness :
    deleteNode (deleteNode sampleParent "b").1 "b" = ((deleteNode sampleParent "b").1, false) :=
  (deleteNode_spec sampleParent "b").2.2 (by decide)

theorem allNodes_def (n : Node) : allNodes n = n :: allNodesList n.children := by
  obtain ⟨i, t, s, ch, ca, co⟩ := n; rfl

theorem allDescendantsDone_def (n : Node) :
    allDescendantsDone n = allDescendantsDoneList n.children := by
  obtain ⟨i, t, s, ch, ca, co⟩ := n; rfl

theorem findNode_def (n : Node) (id : String) :
    findNode n id = if n.id = id then some n else findNodeInList n.children id := by
  obtain ⟨i, t, s, ch, ca, co⟩ := n; rfl

theorem findParent_def (root : Node) (childId : String) :
    findParent root childId = findParentList root root.children childId := by
  obtain ⟨i, t, s, ch, ca, co⟩ := root; rfl

theorem getNodePath_def (root : Node) (targetId : String) :
    getNodePath root targetId =
      if root.id = targetId then some [root]
      else
        match getNodePathList root.children targetId with
        | some path => some (root :: path)
        | none => none := by
  obtain ⟨i, t, s, ch, ca, co⟩ := root; rfl

/-- `allDescendantsDone` is true exactly when every proper descendant is
done. -/
theorem allDescendantsDone_iff :
    ∀ n : Node,
      (allDescendantsDone n = true ↔ ∀ d ∈ allNodesList n.children, d.status = Status.done) :=
  nodeInd
    (fun n => allDescendantsDone n = true ↔
      ∀ d ∈ allNodesList n.children, d.status = Status.done)
    (fun l => allDescendantsDoneList l = true ↔
      ∀ d ∈ allNodesList l, d.status = Status.done)
    (fun i t s ch ca co hq => by
      simpa [allDescendantsDone] using hq)
    (by simp [allDescendantsDoneList, allNodesList])
    (fun c l hc hl => by
      have hrhs : (∀ d ∈ allNodesList (c :: l), d.status = Status.done) ↔
          (c.status = Status.done ∧
            (∀ d ∈ allNodesList c.children, d.status = Status.done) ∧
            (∀ d ∈ allNodesList l, d.status = Status.done)) := by
        simp only [allNodesList, allNodes_def c, List.cons_append, List.mem_cons,
          List.mem_append]
        constructor
        · intro h
          refine ⟨h c (Or.inl rfl), fun d hd => h d ?_, fun d hd => h d ?_⟩
          · exact Or.inr (Or.inl hd)
          · exact Or.inr (Or.inr hd)
        · rintro ⟨h1, h2, h3⟩ d hd
          rcases hd with rfl | hd | hd
          · exact h1
          · exact h2 d hd
          · exact h3 d hd
      show allDescendantsDoneList (c :: l) = true ↔
        ∀ d ∈ allNodesList (c :: l), d.status = Status.done
      rw [hrhs]
      by_cases hs : c.status = Status.done
      · by_cases hd : allDescendantsDone c = true
        · simp [allDescendantsDoneList, hs, hd, hl]
          intro _
          exact hc.mp hd
        · have hnall : ¬ ∀ d ∈ allNodesList c.children, d.status = Status.done :=
            fun hall => hd (hc.mpr hall)
          simp [allDescendantsDoneList, hs, hd, hnall]
      · simp [allDescendantsDoneList, hs])

/-- C7: the completion marker is `" (done)"` exactly when the node is DONE
and either childless or with every descendant DONE, `" (done, partial)"`
exactly when the node is DONE but some descendant is not, and an OPEN node
gets no marker (and conversely, an empty marker means the node is OPEN). -/
theorem getStatusDisplay_marker (n : Node) :
    (getStatusDisplay n = " (done)" ↔
      n.status = Status.done ∧
        (n.children = [] ∨ ∀ d ∈ allNodesList n.children, d.status = Status.done)) ∧
    (getStatusDisplay n = " (done, partial)" ↔
      n.status = Status.done ∧ ∃ d ∈ allNodesList n.children, d.status ≠ Status.done) ∧
    (getStatusDisplay n = "" ↔ n.status = Status.open_) := by
  cases hs : n.status with
  | open_ =>
    have hdisp : getStatusDisplay n = "" := by simp [getStatusDisplay, hs]
    rw [hdisp]
    simp
  | done =>
    by_cases hch : n.children.length = 0
    · have hnil : n.children = [] := List.length_eq_zero.mp hch
      have hdisp : getStatusDisplay n = " (done)" := by simp [getStatusDisplay, hs, hch]
      rw [hdisp]
      simp [hnil, allNodesList]
    · by_cases hall : allDescendantsDone n = true
      · have hforall := (allDescendantsDone_iff n).mp hall
        have hdisp : getStatusDisplay n = " (done)" := by
          simp [getStatusDisplay, hs, hch, hall]
        rw [hdisp]
        refine ⟨?_, ?_, ?_⟩
        · exact ⟨fun _ => ⟨rfl, Or.inr hforall⟩, fun _ => rfl⟩
        · constructor
          · intro h; exact absurd h (by simp)
          · rintro ⟨_, d, hd, hne⟩; exact absurd (hforall d hd) hne
        · constructor
          · intro h; exact absurd h (by simp)
          · intro h; exact absurd h (by simp)
      · have hnall : ¬ ∀ d ∈ allNodesList n.children, d.status = Status.done :=
          fun h => hall ((allDescendantsDone_iff n).mpr h)
        have hex : ∃ d ∈ allNodesList n.children, d.status ≠ Status.done := by
          push_neg at hnall
          exact hnall
        have hdisp : getStatusDisplay n = " (done, partial)" := by
          simp [getStatusDisplay, hs, hch, hall]
        rw [hdisp]
        refine ⟨?_, ?_, ?_⟩
        · constructor
          · intro h; exact absurd h (by simp)
          · rintro ⟨_, hnil | hforall⟩
            · exact absurd (by simp [hnil] : n.children.length = 0) hch
            · exact absurd hforall hnall
        · exact ⟨fun _ => ⟨rfl, hex⟩, fun _ => rfl⟩
        · constructor
          · intro h; exact absurd h (by simp)
          · intro h; exact absurd h (by simp)

/-- C8 counterexample: with a stale id on top of the navigation stack,
`getCurrentNode` does not fall back toward the root — it throws the
"navigation stack is corrupted" error even though the rest of the tree is
intact. -/
theorem getCurrentNode_throws_on_stale :
    getCurrentNode ⟨chainRoot, ["stale"]⟩ =
      Except.error "Current node not found - navigation stack is corrupted" ∧
    findNode chainRoot "stale" = none :=
  ⟨rfl, rfl⟩

/-- C8 (amended): the two accessors differ.  `getParentNode` treats a stale
parent id as absence — it returns whatever `findNode` yields (`none` when
the id no longer resolves) and can never throw — while `getCurrentNode`
**throws** an `Error` whenever the id on top of the stack no longer
resolves, rather than falling back toward the root. -/
theorem navigation_stale_id_behavior (state : AppStateNav) (cid : String)
    (h1 : state.navigationStack.getLast? = some cid)
    (h2 : findNode state.root cid = none) :
    getCurrentNode state =
      Except.error "Current node not found - navigation stack is corrupted" ∧
    (2 ≤ state.navigationStack.length →
      ∀ pid, state.navigationStack.get? (state.navigationStack.length - 2) = some pid →
        getParentNode state = findNode state.root pid) ∧
    (state.navigationStack.length ≤ 1 → getParentNode state = none) := by
  refine ⟨?_, ?_, ?_⟩
  · simp [getCurrentNode, h1, h2]
  · intro hlen pid hpid
    have hgt : ¬ state.navigationStack.length ≤ 1 := by omega
    rw [List.get?_eq_getElem?] at hpid
    simp [getParentNode, hgt, hpid]
  · intro hlen
    simp [getParentNode, hlen]

/-- Sample session state whose stack ends in an unresolvable id. -/
def staleState : AppStateNav := ⟨chainRoot, ["root", "stale"]⟩

/-- Witness for the amended C8 on `staleState`. -/
theorem navigation_stale_id_behavior_witness :
    getCurrentNode staleState =
      Except.error "Current node not found - navigation stack is corrupted" ∧
    (2 ≤ staleState.navigationStack.length →
      ∀ pid, staleState.navigationStack.get? (staleState.navigationStack.length - 2) = some pid →
        getParentNode staleState = findNode staleState.root pid) ∧
    (staleState.navigationStack.length ≤ 1 → getParentNode staleState = none) :=
  navigation_stale_id_behavior staleState "stale" rfl rfl

/-- Sample freshly opened "new task" modal. -/
def newModal : ModalState := ⟨ModalType.new, some "", none, some 0⟩

/-- C9 counterexample: a printable character is **not** appended unchanged:
`A` is lowercased to `a` before being appended, and `!` is rejected
entirely, setting the modal error message and leaving the buffer as it
was. -/
theorem handleModalChar_not_unchanged :
    sanitizeInputChar 'A' = some 'a' ∧
    handleModalChar newModal 'A' = ⟨ModalType.new, some "a", none, some 0⟩ ∧
    handleModalChar newModal '!' =
      ⟨ModalType.new, some "", some "Only letters, numbers, spaces, - and _ allowed", some 0⟩ := by
  refine ⟨by decide, by decide, by decide⟩

/-- C9 (amended): while a new/edit modal is open, a printable keypress is
sanitized before being appended: lowercase letters, digits, space, hyphen
and underscore are appended as-is, uppercase letters are appended
lowercased, and any other character leaves the buffer unchanged and sets
the error message "Only letters, numbers, spaces, - and _ allowed";
Backspace removes the last character of the buffer (clearing the error). -/
theorem handleModalChar_sanitizes (modal : ModalState) (c : Char)
    (htype : modal.type = ModalType.new ∨ modal.type = ModalType.edit)
    (hprint : 32 ≤ c.toNat) :
    (∀ s, sanitizeInputChar c = some s →
      handleModalChar modal c =
        { modal with
          inputValue := some ((modal.inputValue.getD "").push s)
          errorMessage := none }) ∧
    (sanitizeInputChar c = none →
      handleModalChar modal c =
        { modal with errorMessage := some "Only letters, numbers, spaces, - and _ allowed" }) ∧
    handleModalBackspace modal =
      { modal with
        inputValue := some ((modal.inputValue.getD "").dropRight 1)
        errorMessage := none } := by
  refine ⟨?_, ?_, ?_⟩
  · intro s hs
    simp [handleModalChar, htype, hprint, hs]
  · intro hs
    simp [handleModalChar, htype, hprint, hs]
  · simp [handleModalBackspace, htype]

/-- Witness for the amended C9: typing `b` into the fresh new-task modal. -/
theorem handleModalChar_sanitizes_witness :
    (∀ s, sanitizeInputChar 'b' = some s →
      handleModalChar newModal 'b' =
        { newModal with
          inputValue := some ((newModal.inputValue.getD "").push s)
          errorMessage := none }) ∧
    (sanitizeInputChar 'b' = none →
      handleModalChar newModal 'b' =
        { newModal with errorMessage := some "Only letters, numbers, spaces, - and _ allowed" }) ∧
    handleModalBackspace newModal =
      { newModal with
        inputValue := some ((newModal.inputValue.getD "").dropRight 1)
        errorMessage := none } :=
  handleModalChar_sanitizes newModal 'b' (Or.inl rfl) (by decide)

/-- A successful `findNode` returns a node of the subtree bearing the
searched id. -/
theorem findNode_some_mem :
    ∀ n : Node, ∀ id m, findNode n id = some m → m.id = id ∧ m ∈ allNodes n :=
  nodeInd
    (fun n => ∀ id m, findNode n id = some m → m.id = id ∧ m ∈ allNodes n)
    (fun l => ∀ id m, findNodeInList l id = some m → m.id = id ∧ m ∈ allNodesList l)
    (fun i t s ch ca co hq => by
      intro id m h
      simp only [findNode] at h
      split at h
      next hid =>
        cases h
        exact ⟨hid, by simp [allNodes]⟩
      next hid =>
        obtain ⟨h1, h2⟩ := hq id m h
        exact ⟨h1, by simp only [allNodes, List.mem_cons]; exact Or.inr h2⟩)
    (by intro id m h; simp [findNodeInList] at h)
    (fun c rest hc hrest => by
      intro id m h
      cases hfc : findNode c id with
      | some found =>
        simp only [findNodeInList, hfc] at h
        cases h
        obtain ⟨h1, h2⟩ := hc id m hfc
        exact ⟨h1, by simp only [allNodesList, List.mem_append]; exact Or.inl h2⟩
      | none =>
        simp only [findNodeInList, hfc] at h
        obtain ⟨h1, h2⟩ := hrest id m h
        exact ⟨h1, by simp only [allNodesList, List.mem_append]; exact Or.inr h2⟩)

/-- A failed `findNode` means no node of the subtree bears the id. -/
theorem findNode_none_forall :
    ∀ n : Node, ∀ id, findNode n id = none → ∀ m ∈ allNodes n, m.id ≠ id :=
  nodeInd
    (fun n => ∀ id, findNode n id = none → ∀ m ∈ allNodes n, m.id ≠ id)
    (fun l => ∀ id, findNodeInList l id = none → ∀ m ∈ allNodesList l, m.id ≠ id)
    (fun i t s ch ca co hq => by
      intro id h m hm
      simp only [findNode] at h
      split at h
      next => exact absurd h (by simp)
      next hid =>
        simp only [allNodes, List.mem_cons] at hm
        rcases hm with rfl | hm
        · exact hid
        · exact hq id h m hm)
    (by intro id h m hm; simp [allNodesList] at hm)
    (fun c rest hc hrest => by
      intro id h m hm
      cases hfc : findNode c id with
      | some found => simp [findNodeInList, hfc] at h
      | none =>
        simp only [findNodeInList, hfc] at h
        simp only [allNodesList, List.mem_append] at hm
        rcases hm with hm | hm
        · exact hc id hfc m hm
        · exact hrest id h m hm)

/-- With tree-wide unique ids, looking up a member node's id finds exactly
that node. -/
theorem findNode_of_mem_nodup (root : Node) (n : Node)
    (huniq : ((allNodes root).map Node.id).Nodup) (hmem : n ∈ allNodes root) :
    findNode root n.id = some n := by
  cases hf : findNode root n.id with
  | none => exact absurd rfl (findNode_none_forall root n.id hf n hmem)
  | some m =>
    obtain ⟨h1, h2⟩ := findNode_some_mem root n.id m hf
    have := List.inj_on_of_nodup_map huniq h2 hmem h1
    rw [this]

/-- A failed `getNodePath` means a failed `findNode`. -/
theorem getNodePath_none :
    ∀ n : Node, ∀ id, getNodePath n id = none → findNode n id = none :=
  nodeInd
    (fun n => ∀ id, getNodePath n id = none → findNode n id = none)
    (fun l => ∀ id, getNodePathList l id = none → findNodeInList l id = none)
    (fun i t s ch ca co hq => by
      intro id h
      simp only [getNodePath] at h
      split at h
      next => exact absurd h (by simp)
      next hid =>
        cases hql : getNodePathList ch id with
        | some q => simp [hql] at h
        | none =>
          simp only [findNode, if_neg hid]
          exact hq id hql)
    (by intro id h; simp [findNodeInList])
    (fun c rest hc hrest => by
      intro id h
      cases hpc : getNodePath c id with
      | some path => simp [getNodePathList, hpc] at h
      | none =>
        simp only [getNodePathList, hpc] at h
        simp only [findNodeInList, hc id hpc]
        exact hrest id h)

/-- A failed `findNode` means a failed `findParent`. -/
theorem findParent_none :
    ∀ n : Node, ∀ id, findNode n id = none → findParent n id = none :=
  nodeInd
    (fun n => ∀ id, findNode n id = none → findParent n id = none)
    (fun l => ∀ id root, findNodeInList l id = none → findParentList root l id = none)
    (fun i t s ch ca co hq => by
      intro id h
      simp only [findNode] at h
      split at h
      next => exact absurd h (by simp)
      next hid =>
        simp only [findParent]
        exact hq id _ h)
    (by intro id root h; simp [findParentList])
    (fun c rest hc hrest => by
      intro id root h
      cases hfc : findNode c id with
      | some found => simp [findNodeInList, hfc] at h
      | none =>
        simp only [findNodeInList, hfc] at h
        have hcid : ¬ c.id = id := by
          intro hcid
          rw [findNode_def, if_pos hcid] at hfc
          cases hfc
        simp only [findParentList, if_neg hcid, hc id hfc]
        exact hrest id root h)

/-- A successful `getNodePath` is nonempty, starts at the searched root and
ends at the node `findNode` yields. -/
theorem getNodePath_some :
    ∀ n : Node, ∀ id p, getNodePath n id = some p →
      p ≠ [] ∧ p.head? = some n ∧ p.getLast? = findNode n id :=
  nodeInd
    (fun n => ∀ id p, getNodePath n id = some p →
      p ≠ [] ∧ p.head? = some n ∧ p.getLast? = findNode n id)
    (fun l => ∀ id p, getNodePathList l id = some p →
      p ≠ [] ∧ p.getLast? = findNodeInList l id)
    (fun i t s ch ca co hq => by
      intro id p h
      simp only [getNodePath] at h
      split at h
      next hid =>
        cases h
        refine ⟨by simp, rfl, ?_⟩
        simp [findNode, hid]
      next hid =>
        cases hql : getNodePathList ch id with
        | none => simp [hql] at h
        | some q =>
          simp only [hql] at h
          cases h
          obtain ⟨hqne, hqlast⟩ := hq id q hql
          refine ⟨by simp, rfl, ?_⟩
          cases q with
          | nil => exact absurd rfl hqne
          | cons b q' =>
            rw [List.getLast?_cons_cons]
            simp only [findNode, if_neg hid]
            exact hqlast)
    (by intro id p h; simp [getNodePathList] at h)
    (fun c rest hc hrest => by
      intro id p h
      cases hpc : getNodePath c id with
      | some path =>
        simp only [getNodePathList, hpc] at h
        cases h
        obtain ⟨hne, hhead, hlast⟩ := hc id p hpc
        refine ⟨hne, ?_⟩
        obtain ⟨u, hu⟩ : ∃ u, findNode c id = some u := by
          cases hfc : findNode c id with
          | none =>
            rw [hfc] at hlast
            rw [List.getLast?_eq_none_iff] at hlast
            exact absurd hlast hne
          | some u => exact ⟨u, rfl⟩
        simp only [findNodeInList, hu]
        rw [hlast, hu]
      | none =>
        simp only [getNodePathList, hpc] at h
        obtain ⟨hne, hlast⟩ := hrest id p h
        refine ⟨hne, ?_⟩
        simp only [findNodeInList, getNodePath_none c id hpc]
        exact hlast)

/-- List-level export of `getNodePath_some`. -/
theorem getNodePathList_some_facts :
    ∀ (l : List Node) (id : String) (q : List Node),
      getNodePathList l id = some q → q ≠ [] ∧ q.getLast? = findNodeInList l id := by
  intro l
  induction l with
  | nil => intro id q h; simp [getNodePathList] at h
  | cons c rest ih =>
    intro id q h
    cases hpc : getNodePath c id with
    | some path =>
      simp only [getNodePathList, hpc] at h
      cases h
      obtain ⟨hne, hhead, hlast⟩ := getNodePath_some c id q hpc
      refine ⟨hne, ?_⟩
      obtain ⟨u, hu⟩ : ∃ u, findNode c id = some u := by
        cases hfc : findNode c id with
        | none =>
          rw [hfc] at hlast
          rw [List.getLast?_eq_none_iff] at hlast
          exact absurd hlast hne
        | some u => exact ⟨u, rfl⟩
      simp only [findNodeInList, hu]
      rw [hlast, hu]
    | none =>
      simp only [getNodePathList, hpc] at h
      obtain ⟨hne, hlast⟩ := ih id q h
      refine ⟨hne, ?_⟩
      simp only [findNodeInList, getNodePath_none c id hpc]
      exact hlast

/-- A singleton path means the search hit the root itself. -/
theorem getNodePath_length_one (n : Node) (id : String) (p : List Node)
    (h : getNodePath n id = some p) (hlen : p.length = 1) : n.id = id := by
  rw [getNodePath_def] at h
  split at h
  next hid => exact hid
  next hid =>
    cases hql : getNodePathList n.children id with
    | none => rw [hql] at h; cases h
    | some q =>
      rw [hql] at h
      cases h
      obtain ⟨hqne, _⟩ := getNodePathList_some_facts n.children id q hql
      rw [List.length_cons] at hlen
      have hq0 : q.length = 0 := by omega
      exact absurd (List.length_eq_zero.mp hq0) hqne

/-- When the path found inside a child list is a singleton, the matching
child is a direct child, so `findParentList` returns the root it was given. -/
theorem findParentList_of_path_singleton :
    ∀ (l : List Node) (id : String) (p : List Node) (root : Node),
      getNodePathList l id = some p → p.length = 1 →
      findParentList root l id = some root := by
  intro l
  induction l with
  | nil => intro id p root h _; simp [getNodePathList] at h
  | cons c rest ih =>
    intro id p root h hlen
    cases hpc : getNodePath c id with
    | some path =>
      simp only [getNodePathList, hpc] at h
      cases h
      have hcid : c.id = id := getNodePath_length_one c id p hpc hlen
      simp [findParentList, hcid]
    | none =>
      simp only [getNodePathList, hpc] at h
      have hfc : findNode c id = none := getNodePath_none c id hpc
      have hcid : ¬ c.id = id := by
        intro hcid
        rw [findNode_def, if_pos hcid] at hfc
        cases hfc
      simp only [findParentList, if_neg hcid, findParent_none c id hfc]
      exact ih id p root h hlen

/-- The second-to-last entry of a (length ≥ 2) node path is exactly what
`findParent` returns. -/
theorem findParent_path :
    ∀ n : Node, ∀ id p, getNodePath n id = some p → 2 ≤ p.length →
      findParent n id = p[p.length - 2]? :=
  nodeInd
    (fun n => ∀ id p, getNodePath n id = some p → 2 ≤ p.length →
      findParent n id = p[p.length - 2]?)
    (fun l => ∀ id p root, getNodePathList l id = some p → 2 ≤ p.length →
      findParentList root l id = p[p.length - 2]?)
    (fun i t s ch ca co hq => by
      intro id p h hlen
      simp only [getNodePath] at h
      split at h
      next hid =>
        cases h
        simp at hlen
      next hid =>
        cases hql : getNodePathList ch id with
        | none => simp [hql] at h
        | some q =>
          simp only [hql] at h
          cases h
          obtain ⟨hqne, _⟩ := getNodePathList_some_facts ch id q hql
          have hqpos : 0 < q.length := List.length_pos.mpr hqne
          simp only [findParent]
          rcases Nat.lt_or_ge q.length 2 with hq2 | hq2
          · have hq1 : q.length = 1 := by omega
            have hzero : (⟨i, t, s, ch, ca, co⟩ :: q : List Node).length - 2 = 0 := by
              simp [hq1]
            rw [hzero]
            rw [List.getElem?_cons_zero]
            exact findParentList_of_path_singleton ch id q _ hql hq1
          · have hidx : (⟨i, t, s, ch, ca, co⟩ :: q : List Node).length - 2 =
                (q.length - 2) + 1 := by
              simp only [List.length_cons]
              omega
            rw [hidx, List.getElem?_cons_succ]
            exact hq id q _ hql hq2)
    (by intro id p root h _; simp [getNodePathList] at h)
    (fun c rest hc hrest => by
      intro id p root h hlen
      cases hpc : getNodePath c id with
      | some path =>
        simp only [getNodePathList, hpc] at h
        cases h
        have hcid : ¬ c.id = id := by
          intro hcid
          rw [getNodePath_def, if_pos hcid] at hpc
          have hpath : p = [c] := by
            injection hpc with h'
            exact h'.symm
          rw [hpath] at hlen
          simp at hlen
        have hfp := hc id p hpc hlen
        obtain ⟨u, hu⟩ : ∃ u, p[p.length - 2]? = some u := by
          cases hx : p[p.length - 2]? with
          | none =>
            rw [List.getElem?_eq_none_iff] at hx
            omega
          | some u => exact ⟨u, rfl⟩
        simp only [findParentList, if_neg hcid, hfp, hu]
      | none =>
        simp only [getNodePathList, hpc] at h
        have hfc : findNode c id = none := getNodePath_none c id hpc
        have hcid : ¬ c.id = id := by
          intro hcid
          rw [findNode_def, if_pos hcid] at hfc
          cases hfc
        simp only [findParentList, if_neg hcid, findParent_none c id hfc]
        exact hrest id p root h hlen)

/-- C5: in a tree with tree-wide unique ids, for every reachable node `n`
the path `getNodePath(root, n.id)` exists, is nonempty, starts at the root,
ends with `n`, and (when it has length at least 2) its second-to-last
element is exactly `findParent(root, n.id)`. -/
theorem getNodePath_consistent (root n : Node)
    (huniq : ((allNodes root).map Node.id).Nodup) (hmem : n ∈ allNodes root) :
    ∃ p, getNodePath root n.id = some p ∧ p ≠ [] ∧ p.head? = some root ∧
      p.getLast? = some n ∧
      (2 ≤ p.length → p[p.length - 2]? = findParent root n.id) := by
  have hfind : findNode root n.id = some n := findNode_of_mem_nodup root n huniq hmem
  cases hp : getNodePath root n.id with
  | none =>
    have := getNodePath_none root n.id hp
    rw [hfind] at this
    cases this
  | some p =>
    obtain ⟨hne, hhead, hlast⟩ := getNodePath_some root n.id p hp
    refine ⟨p, rfl, hne, hhead, ?_, ?_⟩
    · rw [hlast, hfind]
    · intro hlen
      exact (findParent_path root n.id p hp hlen).symm

/-- Witness for C5 on the chain root → A → B → C: the path to `chainC`
exists, ends with `chainC`, and its second-to-last element is
`findParent(chainRoot, "C")`. -/
theorem getNodePath_consistent_witness :
    ∃ p, getNodePath chainRoot chainC.id = some p ∧ p ≠ [] ∧
      p.head? = some chainRoot ∧ p.getLast? = some chainC ∧
      (2 ≤ p.length → p[p.length - 2]? = findParent chainRoot chainC.id) :=
  getNodePath_consistent chainRoot chainC (by decide)
    (List.Mem.tail _ (List.Mem.tail _ (List.Mem.tail _ (List.Mem.head _))))

end Dft
